import Mathlib

/-!
Verification development for the UhrforumScraper marketplace scraper
(`web_scraper_ai_studio_code.py`).

The Python source is shallowly embedded: pure functions become Lean
functions, library calls (HTTP, BeautifulSoup, pandas) are modelled by
explicit data passed in (fetch outcomes, parsed post bodies, rendered
rows), and Python floats are modelled as rationals.  The regular
expression used by the price extractor is embedded as an explicit
backtracking matcher that follows Python `re` semantics for that one
pattern (leftmost scan, greedy quantifiers with backtracking, ordered
alternation, non-overlapping `findall`).
-/

set_option autoImplicit false
set_option maxRecDepth 10000

namespace UFscraper

/-- Characters of the regex class \s, restricted to its ASCII members
(the scraper's inputs are forum text; we model `\s` and `\d` on ASCII). -/
def isPySpace (c : Char) : Bool :=
  c = ' ' || c = '\t' || c = '\n' || c = '\r' || c = '\x0b' || c = '\x0c'

/-- Models Python `str.startswith`: character-level prefix test. -/
def pyStartsWith (s p : String) : Bool :=
  p.toList.isPrefixOf s.toList

/-- Takes exactly `n` digit characters from the front of `s`, returning the
digits and the remainder; fails if fewer than `n` digits are available.
Used for the bounded digit groups \d{1,3}, \d{3}, \d{2} of the price
pattern. -/
def takeDigits (n : Nat) (s : List Char) : Option (List Char × List Char) :=
  if n ≤ s.length ∧ (s.take n).all Char.isDigit then some (s.take n, s.drop n) else none

/-- Currency marker (?:€|Euro|EUR) with re.IGNORECASE, alternatives tried
in the regex's order; returns the remainder after the marker. -/
def matchCurrency (s : List Char) : Option (List Char) :=
  match s with
  | '€' :: r => some r
  | _ =>
    if (s.take 4).map Char.toLower = [ 'e', 'u', 'r', 'o' ] then some (s.drop 4)
    else if (s.take 3).map Char.toLower = [ 'e', 'u', 'r' ] then some (s.drop 3)
    else none

/-- The \s*(?:€|Euro|EUR) tail of the price pattern.  Since no currency
marker begins with a whitespace character, the greedy \s* never needs to
backtrack, so maximal munch is exact. -/
def matchAfterGroup (s : List Char) : Option (List Char) :=
  matchCurrency (s.dropWhile isPySpace)

/-- Structured form of the capture group
\d{1,3}(?:\.\d{3})*(?:,\d{2})? : the leading digits, the
'.'-separated thousands groups, and the optional ','-decimal digits. -/
structure PriceCap where
  lead : List Char
  thds : List (List Char)
  dec : Option (List Char)
deriving DecidableEq, Repr

/-- The text of a capture: lead, then each thousands group preceded by
'.', then the decimal digits preceded by ',' when present. -/
def capChars (cap : PriceCap) : List Char :=
  cap.lead ++ (cap.thds.map (fun g => '.' :: g)).flatten ++
    (match cap.dec with
     | some d => ',' :: d
     | none => [])

/-- Continuation of the pattern when the optional (?:,\d{2})? matches
nothing: just the \s*currency tail. -/
def matchNoComma (lead : List Char) (thds : List (List Char)) (s : List Char) :
    Option (PriceCap × List Char) :=
  match matchAfterGroup s with
  | some rest => some (⟨lead, thds, none⟩, rest)
  | none => none

/-- The greedy optional (?:,\d{2})? followed by the pattern tail: first
try to consume ",dd", backtracking to the empty alternative when the
tail fails afterwards. -/
def matchComma2 (lead : List Char) (thds : List (List Char)) (s : List Char) :
    Option (PriceCap × List Char) :=
  match s with
  | ',' :: s' =>
    match takeDigits 2 s' with
    | some (d, r) =>
      match matchAfterGroup r with
      | some rest => some (⟨lead, thds, some d⟩, rest)
      | none => matchNoComma lead thds s
    | none => matchNoComma lead thds s
  | _ => matchNoComma lead thds s

/-- The greedy (?:\.\d{3})* followed by the rest of the pattern: consume
as many ".ddd" groups as possible, backtracking group by group when the
continuation fails.  The fuel argument bounds the number of groups; every
group consumes four characters, so fuel `s.length` can only run out on
the empty remainder, where no further group could match anyway. -/
def matchThds : Nat → List Char → List (List Char) → List Char → Option (PriceCap × List Char)
  | 0, lead, thds, s => matchComma2 lead thds s
  | fuel + 1, lead, thds, s =>
    match s with
    | '.' :: s' =>
      match takeDigits 3 s' with
      | some (d, r) =>
        match matchThds fuel lead (thds ++ [d]) r with
        | some res => some res
        | none => matchComma2 lead thds s
      | none => matchComma2 lead thds s
    | _ => matchComma2 lead thds s

/-- Attempt of the whole pattern at this position with a one-digit lead. -/
def matchStartOne (s : List Char) : Option (PriceCap × List Char) :=
  match takeDigits 1 s with
  | some (d, r) => matchThds r.length d [] r
  | none => none

/-- Attempt with a two-digit lead, backtracking to one digit. -/
def matchStartTwo (s : List Char) : Option (PriceCap × List Char) :=
  match takeDigits 2 s with
  | some (d, r) =>
    match matchThds r.length d [] r with
    | some res => some res
    | none => matchStartOne s
  | none => matchStartOne s

/-- Attempt of the whole price pattern anchored at the current position:
the greedy \d{1,3} tries three digits, then two, then one, each followed
by the rest of the pattern. -/
def matchStart (s : List Char) : Option (PriceCap × List Char) :=
  match takeDigits 3 s with
  | some (d, r) =>
    match matchThds r.length d [] r with
    | some res => some res
    | none => matchStartTwo s
  | none => matchStartTwo s

/-- Scan of re.findall: try the pattern at each position from the left;
on a match, record the capture and resume after the match
(non-overlapping), otherwise advance one character.  Every successful
match consumes at least two characters, so fuel `s.length` can only run
out on the empty remainder. -/
def findAllAux : Nat → List Char → List PriceCap
  | 0, _ => []
  | _ + 1, [] => []
  | fuel + 1, c :: rest =>
    match matchStart (c :: rest) with
    | some (cap, r) => cap :: findAllAux fuel r
    | none => findAllAux fuel rest

/-- Models `re.findall(price_pattern, text, re.IGNORECASE)` from
`extract_price`: the list of group-1 capture strings, in scan order. -/
def price_findall (text : String) : List String :=
  (findAllAux text.toList.length text.toList).map (fun cap => String.mk (capChars cap))

/-- Optional leading sign of a Python float literal. -/
def splitSign (l : List Char) : Int × List Char :=
  match l with
  | [] => (1, [])
  | c :: r => if c = '+' then (1, r) else if c = '-' then (-1, r) else (1, c :: r)

/-- Numeric value of a digit string. -/
def digitsToNat (l : List Char) : Nat :=
  l.foldl (fun a c => 10 * a + (c.toNat - 48)) 0

/-- Signed digit run of a float exponent. -/
def pyFloatExpSigned (l : List Char) : Option Int :=
  let p := splitSign l
  if p.2 ≠ [] ∧ p.2.all Char.isDigit then some (p.1 * digitsToNat p.2) else none

/-- Optional exponent part of a Python float literal; `none` when trailing
characters remain that are not an exponent. -/
def pyFloatExp : List Char → Option Int
  | [] => some 0
  | 'e' :: r => pyFloatExpSigned r
  | 'E' :: r => pyFloatExpSigned r
  | _ => none

/-- Power of ten as a rational, for scaling by a decimal exponent. -/
def pow10 (e : Int) : ℚ :=
  match e with
  | Int.ofNat n => ((10 ^ n : Nat) : ℚ)
  | Int.negSucc n => 1 / ((10 ^ (n + 1) : Nat) : ℚ)

/-- Core of Python `float()` on a stripped character list: optional sign,
digits with an optional '.' and fractional digits (at least one digit in
total), optional exponent.  The numeric value is modelled exactly as a
rational; the non-finite special names (inf, nan) are outside ℚ and the
scraper never produces them, so they are not modelled. -/
def pyFloatCore (l : List Char) : Option ℚ :=
  let p := splitSign l
  let intPart := p.2.takeWhile Char.isDigit
  let r2 := p.2.dropWhile Char.isDigit
  let fp :=
    match r2 with
    | '.' :: r => (r.takeWhile Char.isDigit, r.dropWhile Char.isDigit)
    | _ => ([], r2)
  if intPart = [] ∧ fp.1 = [] then none
  else
    match pyFloatExp fp.2 with
    | none => none
    | some e =>
      some ((p.1 : ℚ) * ((digitsToNat intPart : ℚ) +
        (digitsToNat fp.1 : ℚ) / ((10 ^ fp.1.length : Nat) : ℚ)) * pow10 e)

/-- Whitespace stripping performed by Python `float()` on its argument. -/
def pyStrip (l : List Char) : List Char :=
  ((l.dropWhile isPySpace).reverse.dropWhile isPySpace).reverse

/-- Models Python `float(s)` for finite numeric literals, as a rational. -/
def pyFloat (s : String) : Option ℚ :=
  pyFloatCore (pyStrip s.toList)

/-- Embeds `UhrforumScraper.clean_price`: remove every '.' (thousands
separator), then turn every ',' into '.' (decimal separator), then
convert with `float`, returning `none` on a `ValueError`. -/
def clean_price (price_str : String) : Option ℚ :=
  pyFloat (String.mk ((price_str.toList.filter (fun c => c ≠ '.')).map
    (fun c => if c = ',' then '.' else c)))

/-- Embeds `UhrforumScraper.extract_price`: find all matches of the
currency pattern in the text and return the cleaned last one, or `none`
when there is no match. -/
def extract_price (text : String) : Option ℚ :=
  match (price_findall text).getLast? with
  | some m => clean_price m
  | none => none

/-- Shape invariant of the capture groups the matcher produces: a
nonempty all-digit lead, all-digit thousands groups, and all-digit
decimal digits when present.  Every capture of the price pattern has
this shape, which is what makes the `float` conversion of `clean_price`
total on captures. -/
def GoodCap (cap : PriceCap) : Prop :=
  cap.lead ≠ [] ∧ cap.lead.all Char.isDigit = true
    ∧ (∀ g ∈ cap.thds, g.all Char.isDigit = true)
    ∧ (∀ d, cap.dec = some d → d.all Char.isDigit = true)

/-- Outcome of the HTTP request issued inside `get_soup`: either some
exception was raised while requesting (connection error, timeout, ...),
or a response with a status code and a body came back. -/
inductive HttpOutcome where
  | exn (msg : String)
  | response (status : Nat) (body : String)
deriving DecidableEq, Repr

/-- Models `requests.Response.raise_for_status`, which raises `HTTPError`
exactly for client-error and server-error status codes (4xx and 5xx). -/
def raise_for_status_raises (status : Nat) : Bool :=
  decide (400 ≤ status) && decide (status < 600)

/-- Embeds `UhrforumScraper.get_soup` over the outcome of its HTTP
request: the try block either raises (request exception, or
`raise_for_status` on a 4xx/5xx response) - in which case the handler
prints a diagnostic and returns `None` - or returns the parsed document,
modelled here by the response body handed to the parser. -/
def get_soup (o : HttpOutcome) : Option String :=
  match o with
  | HttpOutcome.exn _ => none
  | HttpOutcome.response status body =>
    if raise_for_status_raises status then none else some body

/-- An `img.bbImage` tag of the first post, with its optional `src` and
`data-url` attributes (as BeautifulSoup's `get` returns them: `none`
when the attribute is absent). -/
structure ImgTag where
  src : Option String
  dataUrl : Option String
deriving DecidableEq, Repr

/-- The first post's body element (`article.message-body .bbWrapper`):
its visible text (via `get_text(separator=' ')`) and its `img.bbImage`
tags in document order. -/
structure PostBody where
  bodyText : String
  imgTags : List ImgTag
deriving DecidableEq, Repr

/-- Result record of `scrape_thread_details`. -/
structure ThreadDetails where
  price : Option ℚ
  images : List String
deriving DecidableEq, Repr

/-- Python's `a or b` on the two attribute lookups: the empty string is
falsy, so it falls through to the second operand. -/
def pyOrStr (a b : Option String) : Option String :=
  match a with
  | some s => if s = "" then b else some s
  | none => b

/-- The `img_url = img.get('src') or img.get('data-url'); if img_url:`
step: the first truthy attribute value, `none` when both are missing or
empty. -/
def imgUrlOf (img : ImgTag) : Option String :=
  match pyOrStr img.src img.dataUrl with
  | some s => if s = "" then none else some s
  | none => none

/-- Relative-URL resolution of `scrape_thread_details`: prepend the base
URL unless the value already starts with "http". -/
def resolveImg (base_url : String) (u : String) : String :=
  if pyStartsWith u "http" then u else base_url ++ u

/-- The image-collection loop of `scrape_thread_details`: the first
three `img.bbImage` tags (`img_tags[:3]`), keeping each tag's first
truthy url attribute resolved against the base URL. -/
def postImages (base_url : String) (post : PostBody) : List String :=
  (post.imgTags.take 3).filterMap (fun img => (imgUrlOf img).map (resolveImg base_url))

/-- Embeds `UhrforumScraper.scrape_thread_details` over the fetch
outcome of the thread page: `none` models a failed `get_soup`, and the
inner option models `select_one('article.message-body .bbWrapper')`. -/
def scrape_thread_details (base_url : String) (fetched : Option (Option PostBody)) :
    ThreadDetails :=
  match fetched with
  | none => ⟨none, []⟩
  | some none => ⟨none, []⟩
  | some (some post) => ⟨extract_price post.bodyText, postImages base_url post⟩

/-- The title link element of a thread item
(`div.structItem-title a[data-tp-primary]`): its stripped text and its
`href` attribute. -/
structure TitleElement where
  titleText : String
  href : String
deriving DecidableEq, Repr

/-- A `div.structItem--thread` entry of an overview page; `select_one`
may find no title link element. -/
structure ThreadItem where
  titleElement : Option TitleElement
deriving DecidableEq, Repr

/-- The `erlaubte_praefixe` filter list set up in `__init__`. -/
def erlaubte_praefixe : List String :=
  ["[Verkauf]", "[Verkauf-Tausch]"]

/-- The title check of the crawl loop:
`any(title.startswith(prefix) for prefix in self.erlaubte_praefixe)`. -/
def titleAllowed (title : String) : Bool :=
  erlaubte_praefixe.any (fun p => pyStartsWith title p)

/-- A row of `threads_data`: title, extracted price, image URLs and the
link cell HTML, as built in `run`. -/
structure ListingRecord where
  title : String
  preis : Option ℚ
  bilder : List String
  link : String
deriving DecidableEq, Repr

/-- The link cell built in `run`:
`f'<a href="{link}" target="_blank">Link</a>'`. -/
def linkCell (link : String) : String :=
  "<a href=\"" ++ link ++ "\" target=\"_blank\">Link</a>"

/-- The record appended by `run` for a qualifying thread: the thread is
fetched through `tf` (the network oracle for thread pages, giving the
fetch outcome of each thread URL) and its details extracted. -/
def mkThreadRecord (tf : String → Option (Option PostBody)) (base_url : String)
    (te : TitleElement) : ListingRecord :=
  let link := base_url ++ te.href
  let d := scrape_thread_details base_url (tf link)
  ⟨te.titleText, d.price, d.images, linkCell link⟩

/-- The inner `for item in thread_items` loop of `run`: stop as soon as
the accumulated count reaches `max_results`; skip items without a title
element and items whose title lacks an allowed prefix; append a record
for every other item. -/
def processItems (tf : String → Option (Option PostBody)) (base_url : String)
    (max_results : Nat) (acc : List ListingRecord) :
    List ThreadItem → List ListingRecord
  | [] => acc
  | item :: rest =>
    if max_results ≤ acc.length then acc
    else
      match item.titleElement with
      | none => processItems tf base_url max_results acc rest
      | some te =>
        if titleAllowed te.titleText then
          processItems tf base_url max_results (acc ++ [mkThreadRecord tf base_url te]) rest
        else processItems tf base_url max_results acc rest

/-- The `while len(threads_data) < max_results` loop of `run` over the
successive overview pages.  The page list is the sequence of fetch
outcomes for pages 1, 2, ...: `none` is a failed fetch (break), `some
[]` a page without thread items (break), and past the end of the list
the crawl has no further pages, which the loop can only leave by one of
its break conditions; a finite page list models any finite execution. -/
def runLoop (tf : String → Option (Option PostBody)) (base_url : String)
    (max_results : Nat) : List (Option (List ThreadItem)) → List ListingRecord →
    List ListingRecord
  | [], acc => acc
  | p :: rest, acc =>
    if max_results ≤ acc.length then acc
    else
      match p with
      | none => acc
      | some [] => acc
      | some items =>
        runLoop tf base_url max_results rest (processItems tf base_url max_results acc items)

/-- A row of the rendered report table: one table row per record, with
the image cell already formatted by `format_images`. -/
structure RenderedRow where
  title : String
  preis : Option ℚ
  bilder : String
  link : String
deriving DecidableEq, Repr

/-- The thumbnail fragment emitted for one image URL inside
`format_images`. -/
def imgFragment (url : String) : String :=
  "<img src=\"" ++ url ++ "\" width=\"120\" style=\"margin:2px;\">"

/-- Embeds the local `format_images` of `save_to_html`: placeholder text
for an empty list, otherwise the concatenated thumbnail fragments. -/
def format_images (img_list : List String) : String :=
  if img_list.isEmpty then "Keine Bilder"
  else String.join (img_list.map imgFragment)

/-- The table row rendered for one record (title and link cells are
carried over; the image cell is formatted). -/
def renderRow (r : ListingRecord) : RenderedRow :=
  ⟨r.title, r.preis, format_images r.bilder, r.link⟩

/-- Embeds `UhrforumScraper.save_to_html`: for an empty record list it
prints a diagnostic and returns without writing; otherwise it writes the
document whose table has one row per record in order.  The file write is
modelled by returning the rendered rows (`none` = no write). -/
def save_to_html (data : List ListingRecord) : Option (List RenderedRow) :=
  if data.isEmpty then none
  else some (data.map renderRow)

/-- Embeds `UhrforumScraper.run`: accumulate records over the pages
starting from the empty list, then hand the result to `save_to_html`.
Returns the accumulated records and the rendering outcome. -/
def run (tf : String → Option (Option PostBody)) (base_url : String)
    (pages : List (Option (List ThreadItem))) (max_results : Nat) :
    List ListingRecord × Option (List RenderedRow) :=
  let recs := runLoop tf base_url max_results pages []
  (recs, save_to_html recs)

end UFscraper

namespace UFscraper

theorem processItems_of_full (tf : String → Option (Option PostBody)) (base_url : String)
    (max_results : Nat) (acc : List ListingRecord) (items : List ThreadItem)
    (h : max_results ≤ acc.length) :
    processItems tf base_url max_results acc items = acc := by
  cases items with
  | nil => rfl
  | cons item rest => simp [processItems, h]

theorem processItems_length_le (tf : String → Option (Option PostBody)) (base_url : String)
    (max_results : Nat) (items : List ThreadItem) :
    ∀ acc : List ListingRecord, acc.length ≤ max_results →
      (processItems tf base_url max_results acc items).length ≤ max_results := by
  induction items with
  | nil => intro acc h; exact h
  | cons item rest ih =>
    intro acc h
    by_cases hfull : max_results ≤ acc.length
    · simp only [processItems, if_pos hfull]
      exact h
    · have hlt : acc.length < max_results := Nat.lt_of_not_le hfull
      simp only [processItems, if_neg hfull]
      match item.titleElement with
      | none => exact ih acc h
      | some te =>
        by_cases ht : titleAllowed te.titleText
        · simp only [ht, if_true]
          apply ih
          simpa using hlt
        · simp only [ht, if_false]
          exact ih acc h

theorem runLoop_length_le (tf : String → Option (Option PostBody)) (base_url : String)
    (max_results : Nat) (pages : List (Option (List ThreadItem))) :
    ∀ acc : List ListingRecord, acc.length ≤ max_results →
      (runLoop tf base_url max_results pages acc).length ≤ max_results := by
  induction pages with
  | nil => intro acc h; exact h
  | cons p rest ih =>
    intro acc h
    by_cases hfull : max_results ≤ acc.length
    · simp [runLoop, hfull, h]
    · simp only [runLoop, if_neg hfull]
      match p with
      | none => exact h
      | some [] => exact h
      | some (item :: items) =>
        exact ih _ (processItems_length_le tf base_url max_results (item :: items) acc h)

theorem runLoop_fetch_fail (tf : String → Option (Option PostBody)) (base_url : String)
    (max_results : Nat) (rest : List (Option (List ThreadItem))) (acc : List ListingRecord) :
    runLoop tf base_url max_results (none :: rest) acc = acc := by
  simp only [runLoop]
  split <;> rfl

theorem save_to_html_isSome (recs : List ListingRecord) :
    (save_to_html recs).isSome ↔ recs ≠ [] := by
  cases recs <;> simp [save_to_html]

/-- Claim C2: a thread whose title element the crawler reads (the result
cap is not yet reached and the title link element is present) produces a
record exactly when the title starts with "[Verkauf]" or
"[Verkauf-Tausch]"; the prefix test is a literal, case-sensitive
`str.startswith` against the configured list, so "[VERKAUF] Rolex" is
rejected and "[Verkauf] Rolex" is accepted. -/
theorem title_filter_spec :
    (∀ t, titleAllowed t =
      (pyStartsWith t "[Verkauf]" || pyStartsWith t "[Verkauf-Tausch]"))
    ∧ titleAllowed "[VERKAUF] Rolex" = false
    ∧ titleAllowed "[Verkauf] Rolex" = true
    ∧ (∀ tf base_url max_results acc item te, acc.length < max_results →
        item.titleElement = some te →
        processItems tf base_url max_results acc [item] =
          (if titleAllowed te.titleText then acc ++ [mkThreadRecord tf base_url te]
           else acc)) := by
  refine ⟨?_, by decide, by decide, ?_⟩
  · intro t
    simp [titleAllowed, erlaubte_praefixe]
  · intro tf base_url max_results acc item te hlt hte
    have hfull : ¬ max_results ≤ acc.length := Nat.not_le_of_lt hlt
    by_cases ht : titleAllowed te.titleText <;>
      simp [processItems, if_neg hfull, hte, ht]

/-- Witness for C2 at a concrete crawl state: with one slot free, an
item titled "[Verkauf] Omega" is recorded and an item titled
"Suche Uhr" is not. -/
theorem title_filter_spec_witness :
    processItems (fun _ => none) "https://uhrforum.de" 1 []
        [⟨some ⟨"[Verkauf] Omega", "/threads/1/"⟩⟩] =
      [mkThreadRecord (fun _ => none) "https://uhrforum.de" ⟨"[Verkauf] Omega", "/threads/1/"⟩]
    ∧ processItems (fun _ => none) "https://uhrforum.de" 1 []
        [⟨some ⟨"Suche Uhr", "/threads/2/"⟩⟩] = [] := by
  constructor
  · have h := title_filter_spec.2.2.2 (fun _ => none) "https://uhrforum.de" 1 []
      ⟨some ⟨"[Verkauf] Omega", "/threads/1/"⟩⟩ ⟨"[Verkauf] Omega", "/threads/1/"⟩
      (by decide) rfl
    rw [h]
    simp [if_pos (by decide : titleAllowed "[Verkauf] Omega" = true)]
  · have h := title_filter_spec.2.2.2 (fun _ => none) "https://uhrforum.de" 1 []
      ⟨some ⟨"Suche Uhr", "/threads/2/"⟩⟩ ⟨"Suche Uhr", "/threads/2/"⟩
      (by decide) rfl
    rw [h]
    simp [(by decide : titleAllowed "Suche Uhr" = false)]

/-- Claim C3: throughout the crawl loop the accumulated record list
never exceeds `max_results` (the crawl starts empty, and the bound is
preserved from every intermediate state), and once the count has reached
the maximum the in-page loop stops: the remaining items of the page are
never processed and produce no record. -/
theorem crawl_cap_spec :
    (∀ tf base_url max_results pages,
      (runLoop tf base_url max_results pages []).length ≤ max_results)
    ∧ (∀ tf base_url max_results pages acc, acc.length ≤ max_results →
        (runLoop tf base_url max_results pages acc).length ≤ max_results)
    ∧ (∀ tf base_url max_results acc items, max_results ≤ acc.length →
        processItems tf base_url max_results acc items = acc) := by
  refine ⟨?_, ?_, ?_⟩
  · intro tf base_url max_results pages
    exact runLoop_length_le tf base_url max_results pages [] (by simp)
  · intro tf base_url max_results pages acc h
    exact runLoop_length_le tf base_url max_results pages acc h
  · intro tf base_url max_results acc items h
    exact processItems_of_full tf base_url max_results acc items h

/-- Witness for C3 at a concrete state: with the cap of 1 already
reached, a page full of qualifying items adds nothing. -/
theorem crawl_cap_spec_witness :
    processItems (fun _ => none) "https://uhrforum.de" 1
        [⟨"[Verkauf] Omega", none, [], ""⟩]
        [⟨some ⟨"[Verkauf] Rolex", "/threads/9/"⟩⟩] =
      [⟨"[Verkauf] Omega", none, [], ""⟩]
    ∧ (runLoop (fun _ => none) "https://uhrforum.de" 1
        [some [⟨some ⟨"[Verkauf] Rolex", "/threads/9/"⟩⟩]] []).length ≤ 1 := by
  constructor
  · exact crawl_cap_spec.2.2 (fun _ => none) "https://uhrforum.de" 1
      [⟨"[Verkauf] Omega", none, [], ""⟩]
      [⟨some ⟨"[Verkauf] Rolex", "/threads/9/"⟩⟩] (by decide)
  · exact crawl_cap_spec.1 (fun _ => none) "https://uhrforum.de" 1
      [some [⟨some ⟨"[Verkauf] Rolex", "/threads/9/"⟩⟩]]

/-- Claim C6: when an overview-page fetch fails the crawl loop returns
exactly the records accumulated so far; the report is rendered (the file
written) exactly when that record list is nonempty; in particular a run
whose first page fetch fails ends with no records and no file write. -/
theorem fetch_fail_spec :
    (∀ tf base_url max_results rest acc,
      runLoop tf base_url max_results (none :: rest) acc = acc)
    ∧ (∀ recs : List ListingRecord, (save_to_html recs).isSome ↔ recs ≠ [])
    ∧ (∀ tf base_url max_results rest,
        run tf base_url (none :: rest) max_results = ([], none)) := by
  refine ⟨runLoop_fetch_fail, save_to_html_isSome, ?_⟩
  intro tf base_url max_results rest
  simp [run, runLoop_fetch_fail, save_to_html]

/-- Claim C8: when the thread-page fetch fails, or it succeeds but the
first post's body element is absent, `scrape_thread_details` returns the
default record of an absent price and an empty image list. -/
theorem scrape_defaults_spec :
    ∀ base_url, scrape_thread_details base_url none = ⟨none, []⟩
      ∧ scrape_thread_details base_url (some none) = ⟨none, []⟩ := by
  intro base_url
  exact ⟨rfl, rfl⟩

/-- Claim C5: rendering an empty record list performs no file write;
rendering a nonempty list writes a table with exactly one row per record
in order, whose image cell is the concatenation of one thumbnail
fragment per image URL, or the placeholder "Keine Bilder" for a record
without images. -/
theorem save_to_html_spec :
    save_to_html [] = none
    ∧ (∀ data : List ListingRecord, data ≠ [] →
        save_to_html data = some (data.map renderRow))
    ∧ (∀ data : List ListingRecord, (data.map renderRow).length = data.length)
    ∧ (∀ r : ListingRecord, (renderRow r).bilder = format_images r.bilder)
    ∧ format_images [] = "Keine Bilder"
    ∧ (∀ l : List String, l ≠ [] →
        format_images l = String.join (l.map imgFragment)) := by
  refine ⟨rfl, ?_, ?_, ?_, rfl, ?_⟩
  · intro data h
    simp [save_to_html, h]
  · intro data
    simp
  · intro r
    rfl
  · intro l h
    simp [format_images, h]

/-- Witness for C5: two concrete records (one with two images, one with
none) render to two rows with the expected image cells. -/
theorem save_to_html_spec_witness :
    save_to_html [⟨"[Verkauf] A", some 5, ["u1", "u2"], "l1"⟩, ⟨"[Verkauf] B", none, [], "l2"⟩] =
      some [⟨"[Verkauf] A", some 5, imgFragment "u1" ++ imgFragment "u2", "l1"⟩,
        ⟨"[Verkauf] B", none, "Keine Bilder", "l2"⟩]
    ∧ format_images ["u1", "u2"] = String.join [imgFragment "u1", imgFragment "u2"] := by
  constructor
  · rw [save_to_html_spec.2.1 _ (by simp)]
    simp [renderRow, format_images, String.join]
  · exact save_to_html_spec.2.2.2.2.2 ["u1", "u2"] (by simp)

/-- Counterexample to C7 as stated: a surfaced response with the
non-2xx status 304 is parsed and returned, not turned into the absence
signal, because `raise_for_status` raises only for 4xx/5xx statuses. -/
theorem get_soup_counterexample :
    get_soup (HttpOutcome.response 304 "doc") = some "doc"
    ∧ (304 < 200 ∨ 300 ≤ 304) := by
  exact ⟨rfl, Or.inr (by decide)⟩

/-- Claim C7 (amended): `get_soup` never raises; it returns the absence
signal exactly when the request raised an exception or the response
status is a 4xx/5xx (the statuses `raise_for_status` raises for), and
returns the parsed document for every other surfaced response. -/
theorem get_soup_spec :
    ∀ o : HttpOutcome,
      (get_soup o = none ↔
        (∃ m, o = HttpOutcome.exn m)
        ∨ (∃ s b, o = HttpOutcome.response s b ∧ 400 ≤ s ∧ s < 600))
      ∧ (∀ s b, o = HttpOutcome.response s b → ¬(400 ≤ s ∧ s < 600) →
          get_soup o = some b) := by
  intro o
  constructor
  · cases o with
    | exn m => simp [get_soup]
    | response s b =>
      simp only [get_soup]
      by_cases h : raise_for_status_raises s = true
      · have h' : 400 ≤ s ∧ s < 600 := by
          simpa [raise_for_status_raises] using h
        simp [h, h']
      · have h' : ¬(400 ≤ s ∧ s < 600) := by
          simpa [raise_for_status_raises] using h
        simp [h, h']
  · intro s b heq hns
    subst heq
    have h : raise_for_status_raises s = false := by
      simpa [raise_for_status_raises] using hns
    simp [get_soup, h]

/-- Witness for C7 (amended) at concrete outcomes: a 200 response is
parsed, a 500 response and an exception give the absence signal. -/
theorem get_soup_spec_witness :
    get_soup (HttpOutcome.response 200 "ok") = some "ok"
    ∧ get_soup (HttpOutcome.response 500 "err") = none
    ∧ get_soup (HttpOutcome.exn "timeout") = none := by
  refine ⟨?_, ?_, ?_⟩
  · exact (get_soup_spec (HttpOutcome.response 200 "ok")).2 200 "ok" rfl (by decide)
  · exact (get_soup_spec (HttpOutcome.response 500 "err")).1.2
      (Or.inr ⟨500, "err", rfl, by decide, by decide⟩)
  · exact (get_soup_spec (HttpOutcome.exn "timeout")).1.2 (Or.inl ⟨"timeout", rfl⟩)

/-- Claim C4: the image list of `scrape_thread_details` never has more
than 3 entries, and every returned URL comes from one of the first three
image tags: it is the tag's attribute value itself when that value
starts with "http", and the base URL prepended to it otherwise. -/
theorem images_spec :
    (∀ base_url fetched, (scrape_thread_details base_url fetched).images.length ≤ 3)
    ∧ (∀ base_url post u, u ∈ postImages base_url post →
        ∃ img ∈ post.imgTags.take 3, ∃ v, imgUrlOf img = some v ∧
          u = if pyStartsWith v "http" then v else base_url ++ v) := by
  constructor
  · intro base_url fetched
    match fetched with
    | none => simp [scrape_thread_details]
    | some none => simp [scrape_thread_details]
    | some (some post) =>
      simp only [scrape_thread_details]
      calc (postImages base_url post).length
          ≤ (post.imgTags.take 3).length := List.length_filterMap_le _ _
        _ ≤ 3 := List.length_take_le 3 post.imgTags
  · intro base_url post u hu
    simp only [postImages, List.mem_filterMap] at hu
    obtain ⟨img, hmem, heq⟩ := hu
    refine ⟨img, hmem, ?_⟩
    match hv : imgUrlOf img with
    | none => rw [hv] at heq; simp at heq
    | some v =>
      rw [hv] at heq
      simp at heq
      exact ⟨v, rfl, by rw [← heq]; rfl⟩

/-- Witness for C4: a concrete post with one absolute and one relative
image URL yields the absolute URL unchanged and the relative one
prefixed with the base URL. -/
theorem images_spec_witness :
    (scrape_thread_details "https://uhrforum.de"
      (some (some ⟨"", [⟨some "https://cdn.x/a.jpg", none⟩, ⟨some "/data/b.jpg", none⟩]⟩))).images.length ≤ 3
    ∧ (∃ img ∈ ([⟨some "/data/b.jpg", none⟩] : List ImgTag).take 3, ∃ v, imgUrlOf img = some v ∧
        "https://uhrforum.de/data/b.jpg" =
          if pyStartsWith v "http" then v else "https://uhrforum.de" ++ v) := by
  constructor
  · exact images_spec.1 "https://uhrforum.de"
      (some (some ⟨"", [⟨some "https://cdn.x/a.jpg", none⟩, ⟨some "/data/b.jpg", none⟩]⟩))
  · exact images_spec.2 "https://uhrforum.de" ⟨"", [⟨some "/data/b.jpg", none⟩]⟩
      "https://uhrforum.de/data/b.jpg" (by decide)

/-- Claim C10: only the first three image tags of the post body are
considered (tags after the third never contribute), and a considered tag
whose `src` and `data-url` are both unusable loses its slot without
backfilling, so fewer than three URLs can result even when the post has
three or more tags with usable URLs. -/
theorem images_take3_spec :
    (∀ base_url t l1 l2, (l1 : List ImgTag).length = 3 →
      postImages base_url ⟨t, l1 ++ l2⟩ = postImages base_url ⟨t, l1⟩)
    ∧ (∃ post : PostBody,
        3 ≤ (post.imgTags.filter (fun i => (imgUrlOf i).isSome)).length
        ∧ (postImages "https://uhrforum.de" post).length < 3) := by
  constructor
  · intro base_url t l1 l2 h3
    have htake : (l1 ++ l2).take 3 = l1.take 3 := by
      rw [List.take_append_eq_append_take, h3, Nat.sub_self]
      simp
    simp only [postImages, htake]
  · refine ⟨⟨"", [⟨some "/a.jpg", none⟩, ⟨none, none⟩, ⟨some "/b.jpg", none⟩,
      ⟨some "/c.jpg", none⟩]⟩, ?_, ?_⟩ <;> decide

theorem extract_price_of_getLast {text : String} {m : String}
    (h : (price_findall text).getLast? = some m) :
    extract_price text = clean_price m := by
  unfold extract_price
  rw [h]

theorem extract_price_of_no_match {text : String}
    (h : price_findall text = []) : extract_price text = none := by
  unfold extract_price
  rw [h]
  rfl

/-- Claim C1: the price extractor returns the converted value of the
last match of the currency pattern in the text ('.' thousands separators
removed, ',' decimal separator turned into '.'), and `none` when nothing
matches; on "Preis: 1.200,50 € oder 1.300,00 EUR" the matches are
"1.200,50" and "1.300,00" and the result is 1300.00. -/
theorem extract_price_spec :
    price_findall "Preis: 1.200,50 € oder 1.300,00 EUR" = ["1.200,50", "1.300,00"]
    ∧ extract_price "Preis: 1.200,50 € oder 1.300,00 EUR" = some 1300
    ∧ (∀ text, price_findall text = [] → extract_price text = none)
    ∧ (∀ text m, (price_findall text).getLast? = some m →
        extract_price text = clean_price m) := by
  refine ⟨by decide, ?_, ?_, ?_⟩
  · have h : (price_findall "Preis: 1.200,50 € oder 1.300,00 EUR").getLast? =
        some "1.300,00" := by decide
    rw [extract_price_of_getLast h]
    with_unfolding_all decide
  · intro text h
    exact extract_price_of_no_match h
  · intro text m h
    exact extract_price_of_getLast h

/-- Witness for C1: the quantified conjuncts applied at concrete texts -
a text without a match returns `none`, and a text whose last match is
"15,00" returns its cleaned value. -/
theorem extract_price_spec_witness :
    extract_price "kein Preis hier" = none
    ∧ extract_price "VB 10 € / 15,00 EUR" = clean_price "15,00" :=
  ⟨extract_price_spec.2.2.1 "kein Preis hier" (by decide),
   extract_price_spec.2.2.2 "VB 10 € / 15,00 EUR" "15,00" (by decide)⟩

/-- Witness for C10: the first conjunct applied to a concrete
three-element tag list with a trailing fourth tag. -/
theorem images_take3_spec_witness :
    postImages "https://uhrforum.de"
        ⟨"", [⟨some "/a.jpg", none⟩, ⟨none, none⟩, ⟨some "/b.jpg", none⟩] ++ [⟨some "/c.jpg", none⟩]⟩ =
      postImages "https://uhrforum.de"
        ⟨"", [⟨some "/a.jpg", none⟩, ⟨none, none⟩, ⟨some "/b.jpg", none⟩]⟩ :=
  images_take3_spec.1 "https://uhrforum.de" ""
    [⟨some "/a.jpg", none⟩, ⟨none, none⟩, ⟨some "/b.jpg", none⟩]
    [⟨some "/c.jpg", none⟩] (by decide)

theorem ne_dot_of_isDigit {c : Char} (h : c.isDigit = true) : c ≠ '.' :=
  fun he => by subst he; exact absurd h (by decide)

theorem ne_comma_of_isDigit {c : Char} (h : c.isDigit = true) : c ≠ ',' :=
  fun he => by subst he; exact absurd h (by decide)

theorem isPySpace_eq_false_of_isDigit {c : Char} (hd : c.isDigit = true) :
    isPySpace c = false := by
  by_contra hsp
  rw [Bool.not_eq_false] at hsp
  simp only [isPySpace, Bool.or_eq_true, decide_eq_true_eq] at hsp
  rcases hsp with ((((h | h) | h) | h) | h) | h <;> (subst h; exact absurd hd (by decide))

theorem takeWhile_append_of_all {p : Char → Bool} :
    ∀ (A rest : List Char), A.all p = true →
      (A ++ rest).takeWhile p = A ++ rest.takeWhile p := by
  intro A
  induction A with
  | nil => intro rest _; rfl
  | cons a A ih =>
    intro rest h
    simp only [List.all_cons, Bool.and_eq_true] at h
    simp [List.takeWhile_cons, h.1, ih rest h.2]

theorem dropWhile_append_of_all {p : Char → Bool} :
    ∀ (A rest : List Char), A.all p = true →
      (A ++ rest).dropWhile p = rest.dropWhile p := by
  intro A
  induction A with
  | nil => intro rest _; rfl
  | cons a A ih =>
    intro rest h
    simp only [List.all_cons, Bool.and_eq_true] at h
    simp [List.dropWhile_cons, h.1, ih rest h.2]

theorem dropWhile_eq_self_of_all_false {p : Char → Bool} :
    ∀ (l : List Char), (∀ c ∈ l, p c = false) → l.dropWhile p = l := by
  intro l h
  cases l with
  | nil => rfl
  | cons a t => simp [List.dropWhile_cons, h a (by simp)]

theorem pyStrip_eq_self {l : List Char} (h : ∀ c ∈ l, isPySpace c = false) :
    pyStrip l = l := by
  unfold pyStrip
  rw [dropWhile_eq_self_of_all_false l h]
  rw [dropWhile_eq_self_of_all_false l.reverse (fun c hc => h c (List.mem_reverse.mp hc))]
  exact List.reverse_reverse l

theorem takeDigits_eq {n : Nat} {s d r : List Char}
    (h : takeDigits n s = some (d, r)) :
    d = s.take n ∧ r = s.drop n ∧ n ≤ s.length ∧ d.all Char.isDigit = true := by
  unfold takeDigits at h
  split at h
  · next hc =>
    simp only [Option.some.injEq, Prod.mk.injEq] at h
    obtain ⟨h1, h2⟩ := h
    subst h1
    subst h2
    exact ⟨rfl, rfl, hc.1, hc.2⟩
  · exact absurd h (by simp)

theorem matchNoComma_good {lead : List Char} {thds : List (List Char)} {s : List Char}
    {cap : PriceCap} {r : List Char}
    (hl : lead ≠ []) (hld : lead.all Char.isDigit = true)
    (hth : ∀ g ∈ thds, g.all Char.isDigit = true)
    (h : matchNoComma lead thds s = some (cap, r)) : GoodCap cap := by
  unfold matchNoComma at h
  split at h
  · simp only [Option.some.injEq, Prod.mk.injEq] at h
    obtain ⟨h1, _⟩ := h
    subst h1
    exact ⟨hl, hld, hth, fun d hd => by simp at hd⟩
  · exact absurd h (by simp)

theorem matchComma2_good {lead : List Char} {thds : List (List Char)} {s : List Char}
    {cap : PriceCap} {r : List Char}
    (hl : lead ≠ []) (hld : lead.all Char.isDigit = true)
    (hth : ∀ g ∈ thds, g.all Char.isDigit = true)
    (h : matchComma2 lead thds s = some (cap, r)) : GoodCap cap := by
  unfold matchComma2 at h
  split at h
  · split at h
    · rename_i s' d r2 heq
      split at h
      · simp only [Option.some.injEq, Prod.mk.injEq] at h
        obtain ⟨h1, _⟩ := h
        subst h1
        refine ⟨hl, hld, hth, fun d' hd' => ?_⟩
        have hdd : d = d' := by simpa using hd'
        subst hdd
        exact (takeDigits_eq heq).2.2.2
      · exact matchNoComma_good hl hld hth h
    · exact matchNoComma_good hl hld hth h
  · exact matchNoComma_good hl hld hth h

theorem matchThds_good {lead : List Char} :
    ∀ (fuel : Nat) (thds : List (List Char)) (s : List Char) (cap : PriceCap) (r : List Char),
      lead ≠ [] → lead.all Char.isDigit = true →
      (∀ g ∈ thds, g.all Char.isDigit = true) →
      matchThds fuel lead thds s = some (cap, r) → GoodCap cap := by
  intro fuel
  induction fuel with
  | zero =>
    intro thds s cap r hl hld hth h
    exact matchComma2_good hl hld hth h
  | succ fuel ih =>
    intro thds s cap r hl hld hth h
    simp only [matchThds] at h
    split at h
    · split at h
      · rename_i s' d r3 heq
        split at h
        · rename_i res hrec
          have hres : res = (cap, r) := by simpa using h
          subst hres
          refine ih _ _ _ _ hl hld ?_ hrec
          intro g hg
          rcases List.mem_append.mp hg with hg | hg
          · exact hth g hg
          · have hgd : g = d := by simpa using hg
            subst hgd
            exact (takeDigits_eq heq).2.2.2
        · exact matchComma2_good hl hld hth h
      · exact matchComma2_good hl hld hth h
    · exact matchComma2_good hl hld hth h

theorem lead_ne_nil_of_takeDigits {n : Nat} {s d r : List Char}
    (hn : 0 < n) (h : takeDigits n s = some (d, r)) : d ≠ [] := by
  obtain ⟨hd1, _, hlen, _⟩ := takeDigits_eq h
  subst hd1
  intro hnil
  have hlt : (s.take n).length = n := by
    rw [List.length_take]
    omega
  rw [hnil] at hlt
  simp at hlt
  omega

theorem matchStartOne_good {s : List Char} {cap : PriceCap} {r : List Char}
    (h : matchStartOne s = some (cap, r)) : GoodCap cap := by
  unfold matchStartOne at h
  split at h
  · rename_i d r1 heq
    exact matchThds_good _ _ _ _ _ (lead_ne_nil_of_takeDigits (by omega) heq)
      (takeDigits_eq heq).2.2.2 (fun g hg => by simp at hg) h
  · exact absurd h (by simp)

theorem matchStartTwo_good {s : List Char} {cap : PriceCap} {r : List Char}
    (h : matchStartTwo s = some (cap, r)) : GoodCap cap := by
  unfold matchStartTwo at h
  split at h
  · rename_i d r1 heq
    split at h
    · rename_i res hrec
      have hres : res = (cap, r) := by simpa using h
      subst hres
      exact matchThds_good _ _ _ _ _ (lead_ne_nil_of_takeDigits (by omega) heq)
        (takeDigits_eq heq).2.2.2 (fun g hg => by simp at hg) hrec
    · exact matchStartOne_good h
  · exact matchStartOne_good h

theorem matchStart_good {s : List Char} {cap : PriceCap} {r : List Char}
    (h : matchStart s = some (cap, r)) : GoodCap cap := by
  unfold matchStart at h
  split at h
  · rename_i d r1 heq
    split at h
    · rename_i res hrec
      have hres : res = (cap, r) := by simpa using h
      subst hres
      exact matchThds_good _ _ _ _ _ (lead_ne_nil_of_takeDigits (by omega) heq)
        (takeDigits_eq heq).2.2.2 (fun g hg => by simp at hg) hrec
    · exact matchStartTwo_good h
  · exact matchStartTwo_good h

theorem findAllAux_good :
    ∀ (fuel : Nat) (s : List Char) (cap : PriceCap),
      cap ∈ findAllAux fuel s → GoodCap cap := by
  intro fuel
  induction fuel with
  | zero =>
    intro s cap h
    simp [findAllAux] at h
  | succ fuel ih =>
    intro s cap h
    match s with
    | [] => simp [findAllAux] at h
    | c :: rest =>
      simp only [findAllAux] at h
      split at h
      · rename_i cap' r hm
        rcases List.mem_cons.mp h with h | h
        · subst h
          exact matchStart_good hm
        · exact ih r cap h
      · exact ih rest cap h

theorem price_findall_shape {text : String} {m : String}
    (h : m ∈ price_findall text) :
    ∃ cap, GoodCap cap ∧ m = String.mk (capChars cap) := by
  simp only [price_findall, List.mem_map] at h
  obtain ⟨cap, hc, heq⟩ := h
  exact ⟨cap, findAllAux_good _ _ cap hc, heq.symm⟩

theorem splitSign_of_head_digit {c : Char} {t : List Char} (h : c.isDigit = true) :
    splitSign (c :: t) = (1, c :: t) := by
  have h1 : c ≠ '+' := fun he => by subst he; exact absurd h (by decide)
  have h2 : c ≠ '-' := fun he => by subst he; exact absurd h (by decide)
  simp [splitSign, h1, h2]

theorem takeWhile_of_all {p : Char → Bool} {l : List Char} (h : l.all p = true) :
    l.takeWhile p = l := by
  have := takeWhile_append_of_all l [] h
  simpa using this

theorem dropWhile_of_all {p : Char → Bool} {l : List Char} (h : l.all p = true) :
    l.dropWhile p = [] := by
  have := dropWhile_append_of_all l [] h
  simpa using this

theorem pyFloatCore_digits {D tail : List Char}
    (hD : D.all Char.isDigit = true) (hne : D ≠ [])
    (htail : tail = [] ∨ ∃ d, d.all Char.isDigit = true ∧ tail = '.' :: d) :
    (pyFloatCore (D ++ tail)).isSome = true := by
  obtain ⟨a, D', rfl⟩ : ∃ a D', D = a :: D' := by
    cases D with
    | nil => exact absurd rfl hne
    | cons a D' => exact ⟨a, D', rfl⟩
  have ha : a.isDigit = true := by
    simp only [List.all_cons, Bool.and_eq_true] at hD
    exact hD.1
  have hsplit : splitSign ((a :: D') ++ tail) = (1, (a :: D') ++ tail) := by
    rw [List.cons_append]
    exact splitSign_of_head_digit ha
  have htake : ((a :: D') ++ tail).takeWhile Char.isDigit =
      (a :: D') ++ tail.takeWhile Char.isDigit := takeWhile_append_of_all _ _ hD
  have hdrop : ((a :: D') ++ tail).dropWhile Char.isDigit =
      tail.dropWhile Char.isDigit := dropWhile_append_of_all _ _ hD
  rcases htail with rfl | ⟨d, hd, rfl⟩
  · simp only [pyFloatCore, hsplit, htake, hdrop]
    simp [pyFloatExp]
  · simp only [pyFloatCore, hsplit, htake, hdrop]
    have ht1 : ('.' :: d).takeWhile Char.isDigit = [] := by
      simp [List.takeWhile_cons]
    have ht2 : ('.' :: d).dropWhile Char.isDigit = '.' :: d := by
      simp [List.dropWhile_cons]
    simp only [ht1, ht2]
    simp [takeWhile_of_all hd, dropWhile_of_all hd, pyFloatExp]

theorem clean_append (X Y : List Char) :
    ((X ++ Y).filter (fun c => c ≠ '.')).map (fun c => if c = ',' then '.' else c) =
      (X.filter (fun c => c ≠ '.')).map (fun c => if c = ',' then '.' else c) ++
        (Y.filter (fun c => c ≠ '.')).map (fun c => if c = ',' then '.' else c) := by
  rw [List.filter_append, List.map_append]

theorem clean_digits {l : List Char} (h : l.all Char.isDigit = true) :
    (l.filter (fun c => c ≠ '.')).map (fun c => if c = ',' then '.' else c) = l := by
  rw [List.all_eq_true] at h
  have hf : l.filter (fun c => c ≠ '.') = l :=
    List.filter_eq_self.mpr (fun a ha => by
      simpa using ne_dot_of_isDigit (h a ha))
  rw [hf]
  have hmap : ∀ a ∈ l, (if a = ',' then '.' else a) = a := fun a ha =>
    if_neg (ne_comma_of_isDigit (h a ha))
  calc l.map (fun c => if c = ',' then '.' else c) = l.map id := List.map_congr_left hmap
    _ = l := List.map_id l

theorem clean_thds {ts : List (List Char)}
    (h : ∀ g ∈ ts, g.all Char.isDigit = true) :
    (((ts.map (fun g => '.' :: g)).flatten).filter (fun c => c ≠ '.')).map
        (fun c => if c = ',' then '.' else c) = ts.flatten := by
  induction ts with
  | nil => rfl
  | cons g gs ih =>
    simp only [List.map_cons, List.flatten_cons]
    rw [clean_append]
    rw [ih (fun g' hg' => h g' (by simp [hg']))]
    have hg : g.all Char.isDigit = true := h g (by simp)
    have hstep : ('.' :: g).filter (fun c => c ≠ '.') = g.filter (fun c => c ≠ '.') := by
      simp [List.filter_cons]
    have hcg : (('.' :: g).filter (fun c => c ≠ '.')).map
        (fun c => if c = ',' then '.' else c) = g := by
      rw [hstep]
      exact clean_digits hg
    rw [hcg]

theorem capChars_clean {cap : PriceCap} (h : GoodCap cap) :
    (((capChars cap).filter (fun c => c ≠ '.')).map (fun c => if c = ',' then '.' else c)) =
      (cap.lead ++ cap.thds.flatten) ++
        (match cap.dec with
         | some d => '.' :: d
         | none => []) := by
  obtain ⟨hl, hld, hth, hdec⟩ := h
  unfold capChars
  rw [clean_append, clean_append]
  rw [clean_digits hld, clean_thds hth]
  congr 1
  cases hcd : cap.dec with
  | none => rfl
  | some d =>
    have hstep : (',' :: d).filter (fun c => c ≠ '.') =
        ',' :: d.filter (fun c => c ≠ '.') := by
      simp [List.filter_cons]
    rw [hstep, List.map_cons, if_pos rfl]
    congr 1
    exact clean_digits (hdec d hcd)

theorem clean_price_good {cap : PriceCap} (h : GoodCap cap) :
    (clean_price (String.mk (capChars cap))).isSome = true := by
  have hg := h
  obtain ⟨hl, hld, hth, hdec⟩ := h
  unfold clean_price pyFloat
  have htl2 : ∀ l : List Char, (String.mk l).toList = l := fun _ => rfl
  rw [htl2, htl2, capChars_clean hg]
  have hDall : (cap.lead ++ cap.thds.flatten).all Char.isDigit = true := by
    rw [List.all_eq_true]
    intro c hc
    rcases List.mem_append.mp hc with hc | hc
    · rw [List.all_eq_true] at hld
      exact hld c hc
    · obtain ⟨g, hg', hcg⟩ := List.mem_flatten.mp hc
      have := hth g hg'
      rw [List.all_eq_true] at this
      exact this c hcg
  have hDne : cap.lead ++ cap.thds.flatten ≠ [] := by
    intro hnil
    rcases List.append_eq_nil.mp hnil with ⟨h1, _⟩
    exact hl h1
  have hnospace : ∀ c ∈ (cap.lead ++ cap.thds.flatten) ++
      (match cap.dec with
       | some d => '.' :: d
       | none => []), isPySpace c = false := by
    intro c hc
    rcases List.mem_append.mp hc with hc | hc
    · rw [List.all_eq_true] at hDall
      exact isPySpace_eq_false_of_isDigit (hDall c hc)
    · match hcd : cap.dec with
      | none => rw [hcd] at hc; simp at hc
      | some d =>
        rw [hcd] at hc
        rcases List.mem_cons.mp hc with hc | hc
        · subst hc; decide
        · have := hdec d hcd
          rw [List.all_eq_true] at this
          exact isPySpace_eq_false_of_isDigit (this c hc)
  rw [pyStrip_eq_self hnospace]
  apply pyFloatCore_digits hDall hDne
  match hcd : cap.dec with
  | none => exact Or.inl rfl
  | some d => exact Or.inr ⟨d, hdec d hcd, rfl⟩

/-- Claim C9: the `float` conversion of `clean_price` succeeds on every
capture the currency regex produces (the `ValueError` branch is
unreachable on such inputs), so `extract_price` returns `none` exactly
when the text contains no match of the currency pattern. -/
theorem clean_price_total_spec :
    (∀ text m, m ∈ price_findall text → (clean_price m).isSome = true)
    ∧ (∀ text, extract_price text = none ↔ price_findall text = []) := by
  have h1 : ∀ text m, m ∈ price_findall text → (clean_price m).isSome = true := by
    intro text m hm
    obtain ⟨cap, hgc, rfl⟩ := price_findall_shape hm
    exact clean_price_good hgc
  refine ⟨h1, ?_⟩
  intro text
  constructor
  · intro h
    by_contra hne
    have hs : (price_findall text).getLast?.isSome := List.getLast?_isSome.mpr hne
    obtain ⟨m, hm⟩ := Option.isSome_iff_exists.mp hs
    rw [extract_price_of_getLast hm] at h
    have hmem : m ∈ price_findall text := by
      obtain ⟨hne2, heq⟩ := List.mem_getLast?_eq_getLast (by rw [Option.mem_def]; exact hm)
      rw [heq]
      exact List.getLast_mem hne2
    have hsome := h1 text m hmem
    rw [h] at hsome
    simp at hsome
  · intro h
    exact extract_price_of_no_match h

theorem matchCurrency_lt {s r : List Char} (h : matchCurrency s = some r) :
    r.length < s.length := by
  unfold matchCurrency at h
  split at h
  · rename_i r'
    simp only [Option.some.injEq] at h
    subst h
    simp
  · split at h
    · rename_i h4
      simp only [Option.some.injEq] at h
      subst h
      have hlen : (s.take 4).length = 4 := by
        have := congrArg List.length h4
        simpa using this
      rw [List.length_take] at hlen
      rw [List.length_drop]
      omega
    · split at h
      · rename_i h3
        simp only [Option.some.injEq] at h
        subst h
        have hlen : (s.take 3).length = 3 := by
          have := congrArg List.length h3
          simpa using this
        rw [List.length_take] at hlen
        rw [List.length_drop]
        omega
      · exact absurd h (by simp)

theorem dropWhile_length_le (p : Char → Bool) (l : List Char) :
    (l.dropWhile p).length ≤ l.length := by
  induction l with
  | nil => simp
  | cons a t ih =>
    rw [List.dropWhile_cons]
    split
    · simp
      omega
    · simp

theorem matchAfterGroup_lt {s r : List Char} (h : matchAfterGroup s = some r) :
    r.length < s.length := by
  unfold matchAfterGroup at h
  calc r.length < (s.dropWhile isPySpace).length := matchCurrency_lt h
    _ ≤ s.length := dropWhile_length_le _ _

theorem matchNoComma_lt {lead : List Char} {thds : List (List Char)} {s : List Char}
    {cap : PriceCap} {r : List Char}
    (h : matchNoComma lead thds s = some (cap, r)) : r.length < s.length := by
  unfold matchNoComma at h
  split at h
  · rename_i rest heq
    simp only [Option.some.injEq, Prod.mk.injEq] at h
    rw [← h.2]
    exact matchAfterGroup_lt heq
  · exact absurd h (by simp)

theorem matchComma2_lt {lead : List Char} {thds : List (List Char)} {s : List Char}
    {cap : PriceCap} {r : List Char}
    (h : matchComma2 lead thds s = some (cap, r)) : r.length < s.length := by
  unfold matchComma2 at h
  split at h
  · split at h
    · rename_i s' x d r2 htd
      split at h
      · rename_i rest heq
        simp only [Option.some.injEq, Prod.mk.injEq] at h
        rw [← h.2]
        obtain ⟨_, hr2, hlen2, _⟩ := takeDigits_eq htd
        have h1 : rest.length < r2.length := matchAfterGroup_lt heq
        have h2 : r2.length ≤ s'.length := by
          subst hr2
          rw [List.length_drop]
          omega
        simp only [List.length_cons]
        omega
      · exact matchNoComma_lt h
    · exact matchNoComma_lt h
  · exact matchNoComma_lt h

theorem matchThds_lt :
    ∀ (fuel : Nat) (lead : List Char) (thds : List (List Char)) (s : List Char)
      (cap : PriceCap) (r : List Char),
      matchThds fuel lead thds s = some (cap, r) → r.length < s.length := by
  intro fuel
  induction fuel with
  | zero =>
    intro lead thds s cap r h
    exact matchComma2_lt h
  | succ fuel ih =>
    intro lead thds s cap r h
    simp only [matchThds] at h
    split at h
    · split at h
      · rename_i s' x d r3 htd
        split at h
        · rename_i res hrec
          have hres : res = (cap, r) := by simpa using h
          subst hres
          obtain ⟨_, hr3, hlen3, _⟩ := takeDigits_eq htd
          have h1 : r.length < r3.length := ih _ _ _ _ _ hrec
          have h2 : r3.length ≤ s'.length := by
            subst hr3
            rw [List.length_drop]
            omega
          simp only [List.length_cons]
          omega
        · exact matchComma2_lt h
      · exact matchComma2_lt h
    · exact matchComma2_lt h

theorem matchStartOne_lt {s : List Char} {cap : PriceCap} {r : List Char}
    (h : matchStartOne s = some (cap, r)) : r.length < s.length := by
  unfold matchStartOne at h
  split at h
  · rename_i d r1 htd
    obtain ⟨_, hr1, hlen1, _⟩ := takeDigits_eq htd
    have h1 : r.length < r1.length := matchThds_lt _ _ _ _ _ _ h
    have h2 : r1.length ≤ s.length := by
      subst hr1
      rw [List.length_drop]
      omega
    omega
  · exact absurd h (by simp)

theorem matchStartTwo_lt {s : List Char} {cap : PriceCap} {r : List Char}
    (h : matchStartTwo s = some (cap, r)) : r.length < s.length := by
  unfold matchStartTwo at h
  split at h
  · rename_i d r1 htd
    split at h
    · rename_i res hrec
      have hres : res = (cap, r) := by simpa using h
      subst hres
      obtain ⟨_, hr1, hlen1, _⟩ := takeDigits_eq htd
      have h1 : r.length < r1.length := matchThds_lt _ _ _ _ _ _ hrec
      have h2 : r1.length ≤ s.length := by
        subst hr1
        rw [List.length_drop]
        omega
      omega
    · exact matchStartOne_lt h
  · exact matchStartOne_lt h

/-- Every successful match of the price pattern consumes at least one
character (in fact at least two), so the scan always advances. -/
theorem matchStart_lt {s : List Char} {cap : PriceCap} {r : List Char}
    (h : matchStart s = some (cap, r)) : r.length < s.length := by
  unfold matchStart at h
  split at h
  · rename_i d r1 htd
    split at h
    · rename_i res hrec
      have hres : res = (cap, r) := by simpa using h
      subst hres
      obtain ⟨_, hr1, hlen1, _⟩ := takeDigits_eq htd
      have h1 : r.length < r1.length := matchThds_lt _ _ _ _ _ _ hrec
      have h2 : r1.length ≤ s.length := by
        subst hr1
        rw [List.length_drop]
        omega
      omega
    · exact matchStartTwo_lt h
  · exact matchStartTwo_lt h

theorem matchThds_nil (fuel : Nat) (lead : List Char) (thds : List (List Char)) :
    matchThds fuel lead thds [] = matchComma2 lead thds [] := by
  cases fuel <;> rfl

theorem findAllAux_nil (fuel : Nat) : findAllAux fuel [] = [] := by
  cases fuel <;> rfl

theorem matchThds_not_dot (fuel : Nat) (lead : List Char) (thds : List (List Char))
    {c : Char} (s' : List Char) (hc : c ≠ '.') :
    matchThds (fuel + 1) lead thds (c :: s') = matchComma2 lead thds (c :: s') := by
  simp only [matchThds]
  split
  · rename_i s'' heq
    injection heq with h1 _
    exact absurd h1 hc
  · rfl

/-- The fuel of `matchThds` is semantically inert: every thousands group
consumes four characters, so any fuel of at least a quarter of the
remaining length (in particular the call sites' `s.length`) gives the
same result as any other sufficient fuel. -/
theorem matchThds_fuel_irrelevant :
    ∀ (f g : Nat) (lead : List Char) (thds : List (List Char)) (s : List Char),
      s.length ≤ 4 * f → s.length ≤ 4 * g →
      matchThds f lead thds s = matchThds g lead thds s := by
  intro f
  induction f with
  | zero =>
    intro g lead thds s hf hg
    have hnil : s = [] := by
      cases s with
      | nil => rfl
      | cons a t => simp at hf
    subst hnil
    rw [matchThds_nil, matchThds_nil]
  | succ f ih =>
    intro g lead thds s hf hg
    cases s with
    | nil => rw [matchThds_nil, matchThds_nil]
    | cons c s' =>
      cases g with
      | zero => simp at hg
      | succ g =>
        by_cases hc : c = '.'
        · subst hc
          simp only [matchThds]
          cases htd : takeDigits 3 s' with
          | none => simp [htd]
          | some dr =>
            obtain ⟨d, r⟩ := dr
            obtain ⟨_, hr, hlen, _⟩ := takeDigits_eq htd
            have hrlen : r.length + 3 = s'.length := by
              subst hr
              rw [List.length_drop]
              omega
            have hrec := ih g lead (thds ++ [d]) r
              (by simp at hf; omega) (by simp at hg; omega)
            simp [htd, hrec]
        · rw [matchThds_not_dot f lead thds s' hc, matchThds_not_dot g lead thds s' hc]

/-- The fuel of the findall scan is semantically inert: every step
consumes at least one character, so fuel `s.length` (the call site's
choice) gives the same result as any other sufficient fuel. -/
theorem findAllAux_fuel_irrelevant :
    ∀ (f g : Nat) (s : List Char), s.length ≤ f → s.length ≤ g →
      findAllAux f s = findAllAux g s := by
  intro f
  induction f with
  | zero =>
    intro g s hf hg
    have hnil : s = [] := by
      cases s with
      | nil => rfl
      | cons a t => simp at hf
    subst hnil
    rw [findAllAux_nil, findAllAux_nil]
  | succ f ih =>
    intro g s hf hg
    cases s with
    | nil => rw [findAllAux_nil, findAllAux_nil]
    | cons c rest =>
      cases g with
      | zero => simp at hg
      | succ g =>
        simp only [findAllAux]
        cases hm : matchStart (c :: rest) with
        | none =>
          simp only [List.length_cons] at hf hg
          simpa using ih g rest (by omega) (by omega)
        | some capr =>
          obtain ⟨cap, r⟩ := capr
          have hr : r.length < (c :: rest).length := matchStart_lt hm
          simp only [List.length_cons] at hf hg hr
          simp [ih g r (by omega) (by omega)]

/-- Witness for C9: the conversion succeeds on the concrete capture
"1.300,00" of the example text, and a matchless text maps to `none`. -/
theorem clean_price_total_spec_witness :
    (clean_price "1.300,00").isSome = true ∧ extract_price "nur Text" = none :=
  ⟨clean_price_total_spec.1 "Preis: 1.200,50 € oder 1.300,00 EUR" "1.300,00" (by decide),
   (clean_price_total_spec.2 "nur Text").mpr (by decide)⟩

end UFscraper
